import Mathlib

/-!
A shallow embedding of the FDAF acoustic echo canceller from `src/lib.rs`
(`FdafAec<FFT_SIZE>`).  Audio samples and filter scalars are modelled as
exact rationals (`ℚ`); complex spectrum bins are pairs of rationals with
complex arithmetic (`Cx`).  The FFT engine is an external dependency of the
repository (`rustfft`); forward and inverse transforms are therefore
modelled as generic length-preserving twiddle-table DFTs
(`dft w x k = ∑ j, w ((k * j) % n) * x j`), and every theorem quantifies
over the tables `wf` (forward plan) and `wi` (unnormalized inverse plan),
so each theorem holds in particular at the true complex roots of unity.
-/

/-- Complex numbers with rational components, modelling `num_complex::Complex<f32>`
in exact arithmetic. -/
structure Cx where
  re : ℚ
  im : ℚ
deriving DecidableEq, Repr

namespace Cx

instance : Zero Cx := ⟨⟨0, 0⟩⟩

instance : One Cx := ⟨⟨1, 0⟩⟩

instance : Add Cx := ⟨fun a b => ⟨a.re + b.re, a.im + b.im⟩⟩

instance : Mul Cx := ⟨fun a b => ⟨a.re * b.re - a.im * b.im, a.re * b.im + a.im * b.re⟩⟩

/-- Complex conjugate, modelling `Complex::conj`. -/
def conj (a : Cx) : Cx := ⟨a.re, -a.im⟩

/-- Squared magnitude, modelling `Complex::norm_sqr` (`re*re + im*im`). -/
def normSq (a : Cx) : ℚ := a.re * a.re + a.im * a.im

/-- Division of a complex value by a real scalar, componentwise, modelling
`Complex<f32> / f32` from `num_complex`. -/
def divQ (a : Cx) (d : ℚ) : Cx := ⟨a.re / d, a.im / d⟩

@[simp] lemma zero_re : (0 : Cx).re = 0 := rfl

@[simp] lemma zero_im : (0 : Cx).im = 0 := rfl

@[simp] lemma one_re : (1 : Cx).re = 1 := rfl

@[simp] lemma one_im : (1 : Cx).im = 0 := rfl

@[simp] lemma add_def (a b : Cx) : a + b = ⟨a.re + b.re, a.im + b.im⟩ := rfl

@[simp] lemma mul_def (a b : Cx) :
    a * b = ⟨a.re * b.re - a.im * b.im, a.re * b.im + a.im * b.re⟩ := rfl

lemma ext_iff {a b : Cx} : a = b ↔ a.re = b.re ∧ a.im = b.im := by
  cases a; cases b; simp

@[simp] lemma mk_zero : (⟨0, 0⟩ : Cx) = 0 := rfl

@[simp] lemma mul_zero' (a : Cx) : a * 0 = 0 := by
  simp [ext_iff]

@[simp] lemma zero_mul' (a : Cx) : 0 * a = 0 := by
  simp [ext_iff]

@[simp] lemma add_zero' (a : Cx) : a + 0 = a := by
  simp [ext_iff]

@[simp] lemma zero_add' (a : Cx) : 0 + a = a := by
  simp [ext_iff]

@[simp] lemma conj_zero : conj 0 = 0 := by
  simp [conj, ext_iff]

@[simp] lemma divQ_zero (d : ℚ) : divQ 0 d = 0 := by
  simp [divQ, ext_iff]

@[simp] lemma normSq_zero : normSq 0 = 0 := by
  simp [normSq]

lemma normSq_nonneg (a : Cx) : 0 ≤ normSq a := by
  have h1 : 0 ≤ a.re * a.re := mul_self_nonneg a.re
  have h2 : 0 ≤ a.im * a.im := mul_self_nonneg a.im
  simpa [normSq] using add_nonneg h1 h2

end Cx

/-- Sum of a list of complex values (the accumulation inside each DFT bin). -/
def csum : List Cx → Cx
  | [] => 0
  | a :: l => a + csum l

@[simp] lemma csum_nil : csum [] = 0 := rfl

@[simp] lemma csum_cons (a : Cx) (l : List Cx) : csum (a :: l) = a + csum l := rfl

lemma csum_eq_zero {l : List Cx} (h : ∀ a ∈ l, a = 0) : csum l = 0 := by
  induction l with
  | nil => rfl
  | cons a l ih =>
    have ha : a = 0 := h a (List.mem_cons_self a l)
    have hl : ∀ b ∈ l, b = 0 := fun b hb => h b (List.mem_cons_of_mem a hb)
    simp [ha, ih hl]

/-- Generic length-`n` twiddle-table DFT: bin `k` is `∑ j, w ((k*j) % n) * x j`.
With `w m = exp (-2πim/n)` this is the forward transform computed by the
`rustfft` plan; with `w m = exp (2πim/n)` it is the unnormalized inverse. -/
def dft (w : ℕ → Cx) (x : List Cx) : List Cx :=
  (List.range x.length).map fun k =>
    csum (x.enum.map fun jv => w ((k * jv.1) % x.length) * jv.2)

@[simp] lemma dft_length (w : ℕ → Cx) (x : List Cx) : (dft w x).length = x.length := by
  simp [dft]

lemma dft_replicate_zero (w : ℕ → Cx) (n : ℕ) :
    dft w (List.replicate n (0 : Cx)) = List.replicate n (0 : Cx) := by
  rw [List.eq_replicate_iff]
  refine ⟨by simp [dft], ?_⟩
  intro b hb
  simp only [dft, List.length_replicate, List.mem_map] at hb
  obtain ⟨k, _, hk⟩ := hb
  rw [← hk]
  apply csum_eq_zero
  intro a ha
  simp only [List.mem_map] at ha
  obtain ⟨jv, hjv, hjva⟩ := ha
  have : jv.2 = 0 := by
    have := List.mem_enum_iff_getElem?.mp hjv
    simp only [List.getElem?_replicate] at this
    by_cases hj : jv.1 < n
    · exact (by simpa [hj] using this : (0 : Cx) = jv.2).symm
    · simp [hj] at this
  rw [← hjva, this, Cx.mul_zero']

/-! ### Index-write loops

`process` fills the caller's output buffer and the error transform buffer by
writing one index at a time (`error_signal[idx] = mic - echo`,
`e_t_buffer[i + FRAME_SIZE] = sample`).  These loops are modelled as folds of
`List.set` over enumerated lists; the lemmas below characterize them. -/

/-- One write loop: for each `(idx, v)` in `l.enumFrom j`, set index `idx` of
the accumulator to `f v`. -/
def writeLoop (f : α → β) (l : List α) (j : ℕ) (buf : List β) : List β :=
  (l.enumFrom j).foldl (fun b p => b.set p.1 (f p.2)) buf

lemma writeLoop_cons (f : α → β) :
    ∀ (l : List α) (j : ℕ) (a : β) (buf : List β),
      writeLoop f l (j + 1) (a :: buf) = a :: writeLoop f l j buf := by
  intro l
  induction l with
  | nil => intro j a buf; rfl
  | cons x xs ih =>
    intro j a buf
    show writeLoop f xs (j + 1 + 1) ((a :: buf).set (j + 1) (f x))
        = a :: writeLoop f xs (j + 1) (buf.set j (f x))
    rw [List.set_cons_succ, ih]

lemma writeLoop_eq (f : α → β) :
    ∀ (l : List α) (buf : List β), l.length ≤ buf.length →
      writeLoop f l 0 buf = l.map f ++ buf.drop l.length := by
  intro l
  induction l with
  | nil => intro buf _; simp [writeLoop]
  | cons x xs ih =>
    intro buf hlen
    cases buf with
    | nil => simp at hlen
    | cons b bs =>
      show writeLoop f xs 1 ((b :: bs).set 0 (f x)) = (f x :: xs.map f) ++ bs.drop xs.length
      have h0 : (b :: bs).set 0 (f x) = f x :: bs := rfl
      rw [h0]
      have := writeLoop_cons f xs 0 (f x) bs
      rw [show (0 : ℕ) + 1 = 1 from rfl] at this
      rw [this, ih bs (by simpa using hlen)]
      rfl

/-- A write loop targeting `idx + off` for each enumerated `idx`. -/
def writeLoopOff (f : α → β) (off : ℕ) (l : List α) (buf : List β) : List β :=
  l.enum.foldl (fun b p => b.set (p.1 + off) (f p.2)) buf

lemma writeLoopOff_zero (f : α → β) (l : List α) (buf : List β) :
    writeLoopOff f 0 l buf = writeLoop f l 0 buf := by
  simp [writeLoopOff, writeLoop, List.enum]

lemma writeLoopOff_cons_aux (f : α → β) (k : ℕ) :
    ∀ (l : List α) (j : ℕ) (a : β) (buf : List β),
      (l.enumFrom j).foldl (fun b p => b.set (p.1 + (k + 1)) (f p.2)) (a :: buf)
        = a :: (l.enumFrom j).foldl (fun b p => b.set (p.1 + k) (f p.2)) buf := by
  intro l
  induction l with
  | nil => intro j a buf; rfl
  | cons x xs ih =>
    intro j a buf
    show (xs.enumFrom (j + 1)).foldl (fun b p => b.set (p.1 + (k + 1)) (f p.2))
          ((a :: buf).set (j + (k + 1)) (f x))
        = a :: (xs.enumFrom (j + 1)).foldl (fun b p => b.set (p.1 + k) (f p.2))
          (buf.set (j + k) (f x))
    have hidx : j + (k + 1) = (j + k) + 1 := by omega
    rw [hidx, List.set_cons_succ, ih]

lemma writeLoopOff_append (f : α → β) :
    ∀ (pre : List β) (l : List α) (buf : List β),
      writeLoopOff f pre.length l (pre ++ buf) = pre ++ writeLoop f l 0 buf := by
  intro pre
  induction pre with
  | nil =>
    intro l buf
    simpa using writeLoopOff_zero f l buf
  | cons a pre ih =>
    intro l buf
    show l.enum.foldl (fun b p => b.set (p.1 + (pre.length + 1)) (f p.2)) (a :: (pre ++ buf))
        = a :: (pre ++ writeLoop f l 0 buf)
    have he : l.enum = l.enumFrom 0 := rfl
    rw [he, writeLoopOff_cons_aux f pre.length l 0 a (pre ++ buf)]
    exact congrArg (a :: ·) (ih l buf)

lemma zipWith_replicate_left (f : α → β → γ) (a : α) :
    ∀ (n : ℕ) (l : List β), List.zipWith f (List.replicate n a) l = (l.take n).map (f a) := by
  intro n
  induction n with
  | zero => intro l; simp
  | succ m ih =>
    intro l
    cases l with
    | nil => simp
    | cons b bs => simp [List.replicate_succ, ih bs]

lemma mem_zipWith {f : α → β → γ} :
    ∀ {a : List α} {b : List β} {c : γ}, c ∈ List.zipWith f a b →
      ∃ x ∈ a, ∃ y ∈ b, c = f x y := by
  intro a
  induction a with
  | nil => intro b c hc; simp at hc
  | cons x xs ih =>
    intro b c hc
    cases b with
    | nil => simp at hc
    | cons y ys =>
      rcases List.mem_cons.mp hc with h | h
      · exact ⟨x, List.mem_cons_self x xs, y, List.mem_cons_self y ys, h⟩
      · obtain ⟨x', hx', y', hy', hc'⟩ := ih h
        exact ⟨x', List.mem_cons_of_mem x hx', y', List.mem_cons_of_mem y hy', hc'⟩

/-! ### The processor (`FdafAec<FFT_SIZE>` from `src/lib.rs`)

The transient per-frame buffers `x_t_buffer`, `e_t_buffer` and `y_t` are
fully overwritten inside each `process` call before being read, so they are
modelled as intermediate values rather than state fields.  The `rustfft`
plans `fft`/`ifft` are modelled by the twiddle tables `wf`/`wi` supplied to
`process`. -/

/-- State of `FdafAec`: frequency-domain weights, the far-end history window,
the smoothed PSD, the step size `mu`, and the PSD smoothing factor. -/
structure FdafAec where
  weights : List Cx
  far_end_buffer : List ℚ
  psd : List ℚ
  mu : ℚ
  smoothing_factor : ℚ
deriving DecidableEq, Repr

/-- `FdafAec::FRAME_SIZE = FFT_SIZE / 2` (Rust integer division). -/
def frameSize (fftSize : ℕ) : ℕ := fftSize / 2

/-- Repeated-halving test: `n` is an exact power of two, with structural fuel
so that it evaluates by kernel reduction. -/
def isPow2Fuel : ℕ → ℕ → Bool
  | 0, n => decide (n = 1)
  | fuel + 1, n =>
    if n = 0 then false
    else if n = 1 then true
    else decide (n % 2 = 0) && isPow2Fuel fuel (n / 2)

/-- Rust's `usize::is_power_of_two`: `n` is an exact power of two
(`isPowerOfTwo_iff` proves this characterization). -/
def isPowerOfTwo (n : ℕ) : Bool := isPow2Fuel n n

lemma isPow2Fuel_correct : ∀ (fuel n : ℕ), n ≤ fuel + 1 →
    (isPow2Fuel fuel n = true ↔ ∃ k, n = 2 ^ k) := by
  intro fuel
  induction fuel with
  | zero =>
    intro n hn
    interval_cases n
    · simp only [isPow2Fuel, decide_eq_true_eq]
      constructor
      · omega
      · rintro ⟨k, hk⟩
        exact absurd hk.symm (pow_ne_zero k two_ne_zero)
    · simp only [isPow2Fuel, decide_eq_true_eq]
      exact ⟨fun _ => ⟨0, rfl⟩, fun _ => trivial⟩
  | succ fuel ih =>
    intro n hn
    by_cases h0 : n = 0
    · subst h0
      simp only [isPow2Fuel, if_pos rfl]
      constructor
      · intro h
        exact absurd h (by simp)
      · rintro ⟨k, hk⟩
        exact absurd hk.symm (pow_ne_zero k two_ne_zero)
    by_cases h1 : n = 1
    · subst h1
      simp only [isPow2Fuel, if_neg (by omega : (1 : ℕ) ≠ 0), if_pos rfl]
      exact ⟨fun _ => ⟨0, rfl⟩, fun _ => rfl⟩
    have hrec := ih (n / 2) (by omega)
    simp only [isPow2Fuel, if_neg h0, if_neg h1, Bool.and_eq_true, decide_eq_true_eq]
    constructor
    · rintro ⟨heven, hrek⟩
      obtain ⟨k, hk⟩ := hrec.mp hrek
      refine ⟨k + 1, ?_⟩
      have hm : n = 2 * (n / 2) := by omega
      rw [hm, hk, pow_succ]
      ring
    · rintro ⟨k, rfl⟩
      cases k with
      | zero => simp at h1
      | succ k =>
        have hsplit : (2 : ℕ) ^ (k + 1) = 2 * 2 ^ k := by ring
        constructor
        · rw [hsplit]
          exact Nat.mul_mod_right 2 (2 ^ k)
        · refine hrec.mpr ⟨k, ?_⟩
          rw [hsplit]
          exact Nat.mul_div_cancel_left (2 ^ k) (by norm_num)

lemma isPowerOfTwo_iff (n : ℕ) : isPowerOfTwo n = true ↔ ∃ k, n = 2 ^ k :=
  isPow2Fuel_correct n n (by omega)

lemma isPowerOfTwo_two_pow (k : ℕ) : isPowerOfTwo (2 ^ k) = true :=
  (isPowerOfTwo_iff _).mpr ⟨k, rfl⟩

/-- `FdafAec::new(step_size)`: asserts `FRAME_SIZE > 0 && FRAME_SIZE.is_power_of_two()`
(the failed assertion is modelled as `none`), then seeds the weights and the
history with zeros, the PSD with `1.0`, and stores `mu = step_size` and
`smoothing_factor = 0.98`. -/
def FdafAec.new (fftSize : ℕ) (step_size : ℚ) : Option FdafAec :=
  if 0 < frameSize fftSize ∧ isPowerOfTwo (frameSize fftSize) = true then
    some { weights := List.replicate fftSize 0
           far_end_buffer := List.replicate fftSize 0
           psd := List.replicate fftSize 1
           mu := step_size
           smoothing_factor := 98 / 100 }
  else none

/-- `slice::copy_within(src.., 0)`: copy the elements from index `src` on to
the front of the list; positions past the copied range keep their old values. -/
def copyWithin (l : List ℚ) (src : ℕ) : List ℚ :=
  l.drop src ++ l.drop (l.length - src)

/-- Overwrite the `v.length` entries of `l` starting at index `i` with `v`
(`rows_mut(i, len).copy_from_slice(v)`). -/
def setRange (l : List ℚ) (i : ℕ) (v : List ℚ) : List ℚ :=
  l.take i ++ v ++ l.drop (i + v.length)

/-- Step 1 of `process`: shift the second half of the far-end buffer into the
first half, then copy the new far-end frame into the second half. -/
def shiftBuffer (m : ℕ) (buf far : List ℚ) : List ℚ :=
  setRange (copyWithin buf m) m far

/-- Real samples viewed as complex values with zero imaginary part
(`Complex::new(*x, 0.0)`). -/
def toComplex (l : List ℚ) : List Cx := l.map fun x => ⟨x, 0⟩

/-- Step 3 of `process`: `psd[i] = α * psd[i] + (1 - α) * |X_f[i]|²`. -/
def updatePsd (α : ℚ) (psd : List ℚ) (xf : List Cx) : List ℚ :=
  List.zipWith (fun p X => α * p + (1 - α) * X.normSq) psd xf

/-- Steps 4–6 of `process`: `Y_f = W ⊙ X_f`, unnormalized inverse DFT, divide
by `FFT_SIZE`, keep real parts, and extract rows `m..2m` (overlap-save). -/
def echoEstimate (wi : ℕ → Cx) (n m : ℕ) (weights xf : List Cx) : List ℚ :=
  ((((dft wi (List.zipWith (· * ·) weights xf)).map fun c => c.re / (n : ℚ)).drop m).take m)

/-- Step 7 of `process`: `error_signal[idx] = mic - echo` for each index of
`mic.zip(echo).enumerate()`, written into the caller's buffer. -/
def writeError (buf mic echo : List ℚ) : List ℚ :=
  writeLoop (fun p => p.1 - p.2) (mic.zip echo) 0 buf

/-- Step 8 of `process`: zero the transform buffer, place the error frame at
offset `m` (`e_t_buffer[i + FRAME_SIZE] = sample`), and take the forward DFT. -/
def errorSpectrum (wf : ℕ → Cx) (n m : ℕ) (out : List ℚ) : List Cx :=
  dft wf (writeLoopOff (fun s => (⟨s, 0⟩ : Cx)) m out (List.replicate n 0))

/-- Step 9a of `process`: `gradient[i] = conj(X_f[i]) * E_f[i] / (psd[i] + 1e-10)`. -/
def nlmsGradient (xf ef : List Cx) (psd : List ℚ) : List Cx :=
  List.zipWith (fun g p => g.divQ (p + 1 / 10000000000))
    (List.zipWith (fun X E => X.conj * E) xf ef) psd

/-- Step 9b of `process`: `weights += gradient * Complex::new(mu, 0.0)`. -/
def updateWeights (mu : ℚ) (w grad : List Cx) : List Cx :=
  List.zipWith (fun wk g => wk + g * ⟨mu, 0⟩) w grad

/-- `FdafAec::process(error_signal, far_end_frame, mic_frame)` for FFT size `n`.
The entry assertion `FRAME_SIZE == FFT_SIZE / 2` (all three frames share the
const-generic length `FRAME_SIZE`) is modelled by the length guard; a failed
assertion is `none` and leaves no mutated state.  `errBuf` is the initial
content of the caller's `error_signal` buffer. -/
def FdafAec.process (wf wi : ℕ → Cx) (n : ℕ) (st : FdafAec)
    (errBuf far mic : List ℚ) : Option (List ℚ × FdafAec) :=
  if errBuf.length = n / 2 ∧ far.length = n / 2 ∧ mic.length = n / 2 then
    let m := n / 2
    let xhist := shiftBuffer m st.far_end_buffer far
    let xf := dft wf (toComplex xhist)
    let psd2 := updatePsd st.smoothing_factor st.psd xf
    let echo := echoEstimate wi n m st.weights xf
    let out := writeError errBuf mic echo
    let ef := errorSpectrum wf n m out
    let grad := nlmsGradient xf ef psd2
    some (out,
      { st with
        weights := updateWeights st.mu st.weights grad
        far_end_buffer := xhist
        psd := psd2 })
  else none

/-- A stream of `process` calls: each element of `calls` is
`(errBuf, far, mic)`; a failed call aborts the stream. -/
def FdafAec.processSeq (wf wi : ℕ → Cx) (n : ℕ) :
    FdafAec → List (List ℚ × List ℚ × List ℚ) → Option (List (List ℚ) × FdafAec)
  | st, [] => some ([], st)
  | st, c :: cs =>
    match FdafAec.process wf wi n st c.1 c.2.1 c.2.2 with
    | none => none
    | some (out, st') =>
      match FdafAec.processSeq wf wi n st' cs with
      | none => none
      | some (outs, stF) => some (out :: outs, stF)

/-! ### Basic facts about the per-frame steps -/

lemma foldl_set_length (g : γ → ℕ) (f : γ → β) :
    ∀ (ps : List γ) (buf : List β),
      (ps.foldl (fun b p => b.set (g p) (f p)) buf).length = buf.length := by
  intro ps
  induction ps with
  | nil => intro buf; rfl
  | cons p ps ih => intro buf; simp [List.foldl_cons, ih, List.length_set]

lemma writeLoop_length (f : α → β) (l : List α) (j : ℕ) (buf : List β) :
    (writeLoop f l j buf).length = buf.length := by
  unfold writeLoop
  exact foldl_set_length (fun p : ℕ × α => p.1) (fun p : ℕ × α => f p.2) (l.enumFrom j) buf

lemma writeLoopOff_length (f : α → β) (off : ℕ) (l : List α) (buf : List β) :
    (writeLoopOff f off l buf).length = buf.length := by
  unfold writeLoopOff
  exact foldl_set_length (fun p : ℕ × α => p.1 + off) (fun p : ℕ × α => f p.2) l.enum buf

@[simp] lemma writeError_length (buf mic echo : List ℚ) :
    (writeError buf mic echo).length = buf.length :=
  writeLoop_length _ _ _ _

lemma writeError_eq (buf mic echo : List ℚ)
    (hm : mic.length = buf.length) (he : buf.length ≤ echo.length) :
    writeError buf mic echo = List.zipWith (· - ·) mic echo := by
  unfold writeError
  rw [writeLoop_eq _ _ _ (by simp [List.length_zip]; omega)]
  have hz : (mic.zip echo).length = buf.length := by
    simp [List.length_zip]; omega
  rw [hz, List.drop_length, List.append_nil, List.zip, List.map_zipWith]

lemma errorSpectrum_eq (wf : ℕ → Cx) (n m : ℕ) (out : List ℚ)
    (hm : out.length ≤ n - m) (hmn : m ≤ n) :
    errorSpectrum wf n m out
      = dft wf (List.replicate m 0 ++ toComplex out ++ List.replicate (n - m - out.length) 0) := by
  unfold errorSpectrum
  have happ := writeLoopOff_append (fun s => (⟨s, 0⟩ : Cx)) (List.replicate m 0) out
    (List.replicate (n - m) 0)
  rw [List.length_replicate] at happ
  have hsplit : (List.replicate n (0 : Cx)) = List.replicate m 0 ++ List.replicate (n - m) 0 := by
    rw [← List.replicate_add]
    congr 1
    omega
  rw [hsplit, happ, writeLoop_eq _ _ _ (by simpa using hm)]
  simp [toComplex, List.append_assoc, List.drop_replicate]

@[simp] lemma errorSpectrum_length (wf : ℕ → Cx) (n m : ℕ) (out : List ℚ) :
    (errorSpectrum wf n m out).length = n := by
  unfold errorSpectrum
  rw [dft_length, writeLoopOff_length, List.length_replicate]

@[simp] lemma toComplex_length (l : List ℚ) : (toComplex l).length = l.length := by
  simp [toComplex]

lemma copyWithin_length (l : List ℚ) (src : ℕ) :
    (copyWithin l src).length = l.length := by
  simp [copyWithin]

lemma setRange_length (l : List ℚ) (i : ℕ) (v : List ℚ) (h : i + v.length ≤ l.length) :
    (setRange l i v).length = l.length := by
  simp [setRange]
  omega

lemma shiftBuffer_length (m : ℕ) (buf far : List ℚ)
    (hfar : far.length = m) (h2m : 2 * m ≤ buf.length) :
    (shiftBuffer m buf far).length = buf.length := by
  unfold shiftBuffer
  have hc : (copyWithin buf m).length = buf.length := copyWithin_length buf m
  rw [setRange_length _ _ _ (by rw [hc, hfar]; omega), hc]

lemma updatePsd_length (α : ℚ) (psd : List ℚ) (xf : List Cx) :
    (updatePsd α psd xf).length = min psd.length xf.length := by
  simp [updatePsd]

lemma nlmsGradient_length (xf ef : List Cx) (psd : List ℚ) :
    (nlmsGradient xf ef psd).length = min (min xf.length ef.length) psd.length := by
  simp [nlmsGradient]

lemma updateWeights_length (mu : ℚ) (w grad : List Cx) :
    (updateWeights mu w grad).length = min w.length grad.length := by
  simp [updateWeights]

lemma echoEstimate_length (wi : ℕ → Cx) (n m : ℕ) (weights xf : List Cx)
    (hw : weights.length = n) (hxf : xf.length = n) (h2m : 2 * m ≤ n) :
    (echoEstimate wi n m weights xf).length = m := by
  simp [echoEstimate, hw, hxf]
  omega

/-- Unfolded form of a successful `process` call. -/
lemma process_eq_some (wf wi : ℕ → Cx) (n : ℕ) (st : FdafAec) (errBuf far mic : List ℚ)
    (h1 : errBuf.length = n / 2) (h2 : far.length = n / 2) (h3 : mic.length = n / 2) :
    FdafAec.process wf wi n st errBuf far mic =
      some (writeError errBuf mic
              (echoEstimate wi n (n / 2) st.weights
                (dft wf (toComplex (shiftBuffer (n / 2) st.far_end_buffer far)))),
        { weights := updateWeights st.mu st.weights (nlmsGradient
            (dft wf (toComplex (shiftBuffer (n / 2) st.far_end_buffer far)))
            (errorSpectrum wf n (n / 2)
              (writeError errBuf mic
                (echoEstimate wi n (n / 2) st.weights
                  (dft wf (toComplex (shiftBuffer (n / 2) st.far_end_buffer far))))))
            (updatePsd st.smoothing_factor st.psd
              (dft wf (toComplex (shiftBuffer (n / 2) st.far_end_buffer far)))))
          far_end_buffer := shiftBuffer (n / 2) st.far_end_buffer far
          psd := updatePsd st.smoothing_factor st.psd
              (dft wf (toComplex (shiftBuffer (n / 2) st.far_end_buffer far)))
          mu := st.mu
          smoothing_factor := st.smoothing_factor }) := by
  simp only [FdafAec.process, h1, h2, h3, and_self, if_true]

lemma process_eq_none (wf wi : ℕ → Cx) (n : ℕ) (st : FdafAec) (errBuf far mic : List ℚ)
    (h : ¬(errBuf.length = n / 2 ∧ far.length = n / 2 ∧ mic.length = n / 2)) :
    FdafAec.process wf wi n st errBuf far mic = none := by
  simp only [FdafAec.process, h, if_false]

lemma zipWith_replicate_right (f : α → β → γ) (b : β) :
    ∀ (n : ℕ) (l : List α), List.zipWith f l (List.replicate n b) = (l.take n).map (f · b) := by
  intro n
  induction n with
  | zero => intro l; simp
  | succ m ih =>
    intro l
    cases l with
    | nil => simp
    | cons a as => simp [List.replicate_succ, ih as]

lemma zipWith_replicate_both (f : α → β → γ) (a : α) (b : β) (n : ℕ) :
    List.zipWith f (List.replicate n a) (List.replicate n b) = List.replicate n (f a b) := by
  rw [zipWith_replicate_left, List.take_replicate, List.map_replicate]
  simp

lemma map_eq_replicate_zero {l : List α} {g : α → Cx} (h : ∀ a ∈ l, g a = 0) :
    l.map g = List.replicate l.length (0 : Cx) := by
  rw [List.eq_replicate_iff]
  refine ⟨by simp, ?_⟩
  intro b hb
  simp only [List.mem_map] at hb
  obtain ⟨a, ha, rfl⟩ := hb
  exact h a ha

@[simp] lemma toComplex_replicate (k : ℕ) :
    toComplex (List.replicate k 0) = List.replicate k (0 : Cx) := by
  simp [toComplex, List.map_replicate]

lemma echoEstimate_zero (wi : ℕ → Cx) (n m : ℕ) (xf : List Cx)
    (hxf : xf.length = n) (h2m : 2 * m ≤ n) :
    echoEstimate wi n m (List.replicate n 0) xf = List.replicate m 0 := by
  unfold echoEstimate
  rw [zipWith_replicate_left]
  have h1 : (xf.take n).map (fun X => (0 : Cx) * X) = List.replicate n 0 := by
    rw [map_eq_replicate_zero (fun a _ => Cx.zero_mul' a)]
    congr 1
    simp [hxf]
  rw [h1, dft_replicate_zero, List.map_replicate]
  have h2 : ((0 : Cx).re / (n : ℚ)) = 0 := by simp
  rw [h2, List.drop_replicate, List.take_replicate]
  congr 1
  omega

lemma writeError_zero_echo (buf mic : List ℚ) (m : ℕ)
    (hbuf : buf.length = m) (hmic : mic.length = m) :
    writeError buf mic (List.replicate m 0) = mic := by
  rw [writeError_eq buf mic _ (by omega) (by simp [hbuf])]
  rw [zipWith_replicate_right]
  have h1 : mic.take m = mic := by rw [← hmic, List.take_length]
  rw [h1]
  simp

lemma nlmsGradient_zero_xf (n : ℕ) (ef : List Cx) (psd : List ℚ)
    (hef : ef.length = n) (hpsd : psd.length = n) :
    nlmsGradient (List.replicate n 0) ef psd = List.replicate n 0 := by
  unfold nlmsGradient
  rw [zipWith_replicate_left]
  have h1 : (ef.take n).map (fun E => Cx.conj 0 * E) = List.replicate n 0 := by
    rw [map_eq_replicate_zero (fun a _ => by simp)]
    congr 1
    simp [hef]
  rw [h1, zipWith_replicate_left]
  rw [map_eq_replicate_zero (fun p _ => by simp)]
  congr 1
  simp [hpsd]

lemma updateWeights_zero_zero (mu : ℚ) (n : ℕ) :
    updateWeights mu (List.replicate n 0) (List.replicate n 0) = List.replicate n 0 := by
  unfold updateWeights
  rw [zipWith_replicate_both]
  simp

lemma updateWeights_mu_zero (n : ℕ) (grad : List Cx) (hg : grad.length = n) :
    updateWeights 0 (List.replicate n 0) grad = List.replicate n 0 := by
  unfold updateWeights
  rw [zipWith_replicate_left]
  rw [map_eq_replicate_zero (fun g _ => by simp [Cx.ext_iff])]
  congr 1
  simp [hg]

lemma shiftBuffer_replicate_zero (n m : ℕ) (hm : 2 * m ≤ n) :
    shiftBuffer m (List.replicate n 0) (List.replicate m 0) = List.replicate n 0 := by
  unfold shiftBuffer copyWithin setRange
  simp only [List.length_replicate, List.drop_replicate, List.take_replicate,
    ← List.replicate_add]
  congr 1
  omega

lemma shiftBuffer_even (m : ℕ) (buf far : List ℚ)
    (hbuf : buf.length = 2 * m) (hfar : far.length = m) :
    shiftBuffer m buf far = buf.drop m ++ far := by
  unfold shiftBuffer copyWithin setRange
  have hbm : buf.length - m = m := by omega
  rw [hbm]
  have hA : (buf.drop m).length = m := by rw [List.length_drop, hbuf]; omega
  rw [List.take_left' hA]
  have hdr : (buf.drop m ++ buf.drop m).drop (m + far.length) = [] := by
    rw [hfar]
    have hmm : m + m = (buf.drop m).length + m := by omega
    rw [hmm, List.drop_append]
    rw [List.drop_eq_nil_of_le (by omega)]
  rw [hdr, List.append_nil]

lemma process_some_lengths {wf wi : ℕ → Cx} {n : ℕ} {st : FdafAec}
    {errBuf far mic : List ℚ} {r : List ℚ × FdafAec}
    (h : FdafAec.process wf wi n st errBuf far mic = some r) :
    errBuf.length = n / 2 ∧ far.length = n / 2 ∧ mic.length = n / 2 := by
  by_contra hc
  rw [process_eq_none _ _ _ _ _ _ _ hc] at h
  exact Option.noConfusion h

/-! ### Per-call invariant steps -/

lemma silent_far_step (wf wi : ℕ → Cx) (n : ℕ) (st : FdafAec)
    (errBuf far mic out : List ℚ) (st' : FdafAec)
    (hw : st.weights = List.replicate n 0)
    (hbuf : st.far_end_buffer = List.replicate n 0)
    (hpsd : st.psd.length = n)
    (hfar0 : ∀ x ∈ far, x = (0 : ℚ))
    (hres : FdafAec.process wf wi n st errBuf far mic = some (out, st')) :
    out = mic ∧ st'.weights = List.replicate n 0
      ∧ st'.far_end_buffer = List.replicate n 0 ∧ st'.psd.length = n
      ∧ st'.mu = st.mu ∧ st'.smoothing_factor = st.smoothing_factor := by
  obtain ⟨h1, h2, h3⟩ := process_some_lengths hres
  have hfar : far = List.replicate (n / 2) 0 := by
    rw [List.eq_replicate_iff]
    exact ⟨h2, hfar0⟩
  have h2m : 2 * (n / 2) ≤ n := by omega
  have heq := hres.symm.trans (process_eq_some wf wi n st errBuf far mic h1 h2 h3)
  injection heq with hpair
  injection hpair with ho hs
  have hshift : shiftBuffer (n / 2) st.far_end_buffer far = List.replicate n 0 := by
    rw [hbuf, hfar]
    exact shiftBuffer_replicate_zero n (n / 2) h2m
  have hxf : dft wf (toComplex (shiftBuffer (n / 2) st.far_end_buffer far))
      = List.replicate n 0 := by
    rw [hshift, toComplex_replicate, dft_replicate_zero]
  have hecho : echoEstimate wi n (n / 2) st.weights
      (dft wf (toComplex (shiftBuffer (n / 2) st.far_end_buffer far)))
      = List.replicate (n / 2) 0 := by
    rw [hxf, hw]
    exact echoEstimate_zero wi n (n / 2) _ (by simp) h2m
  have hout : writeError errBuf mic
      (echoEstimate wi n (n / 2) st.weights
        (dft wf (toComplex (shiftBuffer (n / 2) st.far_end_buffer far)))) = mic := by
    rw [hecho]
    exact writeError_zero_echo errBuf mic (n / 2) h1 h3
  have houtmic : out = mic := by rw [ho, hout]
  have hpsd2len : (updatePsd st.smoothing_factor st.psd
      (dft wf (toComplex (shiftBuffer (n / 2) st.far_end_buffer far)))).length = n := by
    rw [updatePsd_length, hpsd, dft_length, toComplex_length, hshift]
    simp
  refine ⟨houtmic, ?_, ?_, ?_, ?_, ?_⟩
  · rw [hs]
    show updateWeights st.mu st.weights _ = _
    rw [hout, hw, hxf]
    rw [nlmsGradient_zero_xf n _ _ (errorSpectrum_length wf n (n / 2) mic) (by
      rw [← hxf]
      exact hpsd2len)]
    exact updateWeights_zero_zero st.mu n
  · rw [hs]
    exact hshift
  · rw [hs]
    exact hpsd2len
  · rw [hs]
  · rw [hs]

lemma zero_mu_step (wf wi : ℕ → Cx) (n : ℕ) (st : FdafAec)
    (errBuf far mic out : List ℚ) (st' : FdafAec)
    (hmu : st.mu = 0)
    (hw : st.weights = List.replicate n 0)
    (hfb : st.far_end_buffer.length = n)
    (hpsd : st.psd.length = n)
    (hres : FdafAec.process wf wi n st errBuf far mic = some (out, st')) :
    out = mic ∧ st'.weights = List.replicate n 0
      ∧ st'.far_end_buffer.length = n ∧ st'.psd.length = n
      ∧ st'.mu = 0 ∧ st'.smoothing_factor = st.smoothing_factor := by
  obtain ⟨h1, h2, h3⟩ := process_some_lengths hres
  have h2m : 2 * (n / 2) ≤ n := by omega
  have heq := hres.symm.trans (process_eq_some wf wi n st errBuf far mic h1 h2 h3)
  injection heq with hpair
  injection hpair with ho hs
  have hshiftlen : (shiftBuffer (n / 2) st.far_end_buffer far).length = n := by
    rw [shiftBuffer_length (n / 2) _ _ h2 (by omega), hfb]
  have hxflen : (dft wf (toComplex (shiftBuffer (n / 2) st.far_end_buffer far))).length = n := by
    rw [dft_length, toComplex_length, hshiftlen]
  have hecho : echoEstimate wi n (n / 2) st.weights
      (dft wf (toComplex (shiftBuffer (n / 2) st.far_end_buffer far)))
      = List.replicate (n / 2) 0 := by
    rw [hw]
    exact echoEstimate_zero wi n (n / 2) _ hxflen h2m
  have hout : writeError errBuf mic
      (echoEstimate wi n (n / 2) st.weights
        (dft wf (toComplex (shiftBuffer (n / 2) st.far_end_buffer far)))) = mic := by
    rw [hecho]
    exact writeError_zero_echo errBuf mic (n / 2) h1 h3
  have hpsd2len : (updatePsd st.smoothing_factor st.psd
      (dft wf (toComplex (shiftBuffer (n / 2) st.far_end_buffer far)))).length = n := by
    rw [updatePsd_length, hpsd, hxflen]
    simp
  refine ⟨by rw [ho, hout], ?_, ?_, ?_, ?_, ?_⟩
  · rw [hs]
    show updateWeights st.mu st.weights _ = _
    rw [hmu, hw]
    refine updateWeights_mu_zero n _ ?_
    rw [nlmsGradient_length, hxflen]
    simp [hpsd2len]
  · rw [hs]
    exact hshiftlen
  · rw [hs]
    exact hpsd2len
  · rw [hs]
    exact hmu
  · rw [hs]

lemma psd_pos_step (wf wi : ℕ → Cx) (n : ℕ) (st : FdafAec)
    (errBuf far mic out : List ℚ) (st' : FdafAec)
    (hpos : ∀ p ∈ st.psd, 0 < p)
    (hα : st.smoothing_factor = 49 / 50)
    (hres : FdafAec.process wf wi n st errBuf far mic = some (out, st')) :
    (∀ p ∈ st'.psd, 0 < p) ∧ st'.smoothing_factor = 49 / 50 := by
  obtain ⟨h1, h2, h3⟩ := process_some_lengths hres
  have heq := hres.symm.trans (process_eq_some wf wi n st errBuf far mic h1 h2 h3)
  injection heq with hpair
  injection hpair with ho hs
  constructor
  · intro q hq
    rw [hs] at hq
    simp only [updatePsd] at hq
    obtain ⟨p, hp, X, _, rfl⟩ := mem_zipWith hq
    have hpp := hpos p hp
    have hX := Cx.normSq_nonneg X
    rw [hα]
    nlinarith
  · rw [hs]
    exact hα

lemma shift_step (wf wi : ℕ → Cx) (n : ℕ) (st : FdafAec)
    (errBuf far mic out : List ℚ) (st' : FdafAec)
    (heven : n = 2 * (n / 2))
    (hfb : st.far_end_buffer.length = n)
    (hres : FdafAec.process wf wi n st errBuf far mic = some (out, st')) :
    st'.far_end_buffer = st.far_end_buffer.drop (n / 2) ++ far
      ∧ st'.far_end_buffer.length = n ∧ far.length = n / 2 := by
  obtain ⟨h1, h2, h3⟩ := process_some_lengths hres
  have heq := hres.symm.trans (process_eq_some wf wi n st errBuf far mic h1 h2 h3)
  injection heq with hpair
  injection hpair with ho hs
  have hB : st'.far_end_buffer = st.far_end_buffer.drop (n / 2) ++ far := by
    rw [hs]
    show shiftBuffer (n / 2) st.far_end_buffer far = _
    exact shiftBuffer_even (n / 2) st.far_end_buffer far (by omega) h2
  refine ⟨hB, ?_, h2⟩
  rw [hB]
  simp [hfb, h2]
  omega

/-! ### Whole-stream invariants -/

lemma silent_far_run (wf wi : ℕ → Cx) (n : ℕ) :
    ∀ (calls : List (List ℚ × List ℚ × List ℚ)) (st : FdafAec)
      (outs : List (List ℚ)) (stF : FdafAec),
      st.weights = List.replicate n 0 →
      st.far_end_buffer = List.replicate n 0 →
      st.psd.length = n →
      (∀ c ∈ calls, ∀ x ∈ c.2.1, x = (0 : ℚ)) →
      FdafAec.processSeq wf wi n st calls = some (outs, stF) →
      outs = calls.map (fun c => c.2.2) ∧ stF.weights = List.replicate n 0
        ∧ stF.far_end_buffer = List.replicate n 0 ∧ stF.psd.length = n := by
  intro calls
  induction calls with
  | nil =>
    intro st outs stF hw hb hp _ hrun
    simp only [FdafAec.processSeq] at hrun
    injection hrun with hpair
    injection hpair with ho hs
    exact ⟨ho.symm, hs ▸ hw, hs ▸ hb, hs ▸ hp⟩
  | cons c cs ih =>
    intro st outs stF hw hb hp hz hrun
    simp only [FdafAec.processSeq] at hrun
    cases hproc : FdafAec.process wf wi n st c.1 c.2.1 c.2.2 with
    | none => rw [hproc] at hrun; exact Option.noConfusion hrun
    | some r =>
      obtain ⟨out, st1⟩ := r
      rw [hproc] at hrun
      dsimp only at hrun
      cases hrec : FdafAec.processSeq wf wi n st1 cs with
      | none => rw [hrec] at hrun; exact Option.noConfusion hrun
      | some r2 =>
        obtain ⟨outs1, stF'⟩ := r2
        rw [hrec] at hrun
        dsimp only at hrun
        injection hrun with hpair
        injection hpair with ho hs
        obtain ⟨hout, hw1, hb1, hp1, _, _⟩ :=
          silent_far_step wf wi n st c.1 c.2.1 c.2.2 out st1 hw hb hp
            (hz c (List.mem_cons_self c cs)) hproc
        obtain ⟨houts, hwF, hbF, hpF⟩ := ih st1 outs1 stF' hw1 hb1 hp1
          (fun d hd => hz d (List.mem_cons_of_mem c hd)) hrec
        subst hs
        refine ⟨?_, hwF, hbF, hpF⟩
        rw [← ho, hout, houts]
        rfl

lemma zero_mu_run (wf wi : ℕ → Cx) (n : ℕ) :
    ∀ (calls : List (List ℚ × List ℚ × List ℚ)) (st : FdafAec)
      (outs : List (List ℚ)) (stF : FdafAec),
      st.mu = 0 →
      st.weights = List.replicate n 0 →
      st.far_end_buffer.length = n →
      st.psd.length = n →
      FdafAec.processSeq wf wi n st calls = some (outs, stF) →
      outs = calls.map (fun c => c.2.2) ∧ stF.weights = List.replicate n 0
        ∧ stF.mu = 0 := by
  intro calls
  induction calls with
  | nil =>
    intro st outs stF hmu hw hb hp hrun
    simp only [FdafAec.processSeq] at hrun
    injection hrun with hpair
    injection hpair with ho hs
    exact ⟨ho.symm, hs ▸ hw, hs ▸ hmu⟩
  | cons c cs ih =>
    intro st outs stF hmu hw hb hp hrun
    simp only [FdafAec.processSeq] at hrun
    cases hproc : FdafAec.process wf wi n st c.1 c.2.1 c.2.2 with
    | none => rw [hproc] at hrun; exact Option.noConfusion hrun
    | some r =>
      obtain ⟨out, st1⟩ := r
      rw [hproc] at hrun
      dsimp only at hrun
      cases hrec : FdafAec.processSeq wf wi n st1 cs with
      | none => rw [hrec] at hrun; exact Option.noConfusion hrun
      | some r2 =>
        obtain ⟨outs1, stF'⟩ := r2
        rw [hrec] at hrun
        dsimp only at hrun
        injection hrun with hpair
        injection hpair with ho hs
        obtain ⟨hout, hw1, hb1, hp1, hmu1, _⟩ :=
          zero_mu_step wf wi n st c.1 c.2.1 c.2.2 out st1 hmu hw hb hp hproc
        obtain ⟨houts, hwF, hmuF⟩ := ih st1 outs1 stF' hmu1 hw1 hb1 hp1 hrec
        subst hs
        refine ⟨?_, hwF, hmuF⟩
        rw [← ho, hout, houts]
        rfl

lemma psd_pos_run (wf wi : ℕ → Cx) (n : ℕ) :
    ∀ (calls : List (List ℚ × List ℚ × List ℚ)) (st : FdafAec)
      (outs : List (List ℚ)) (stF : FdafAec),
      (∀ p ∈ st.psd, 0 < p) →
      st.smoothing_factor = 49 / 50 →
      FdafAec.processSeq wf wi n st calls = some (outs, stF) →
      (∀ p ∈ stF.psd, 0 < p) ∧ stF.smoothing_factor = 49 / 50 := by
  intro calls
  induction calls with
  | nil =>
    intro st outs stF hpos hα hrun
    simp only [FdafAec.processSeq] at hrun
    injection hrun with hpair
    injection hpair with _ hs
    exact ⟨hs ▸ hpos, hs ▸ hα⟩
  | cons c cs ih =>
    intro st outs stF hpos hα hrun
    simp only [FdafAec.processSeq] at hrun
    cases hproc : FdafAec.process wf wi n st c.1 c.2.1 c.2.2 with
    | none => rw [hproc] at hrun; exact Option.noConfusion hrun
    | some r =>
      obtain ⟨out, st1⟩ := r
      rw [hproc] at hrun
      dsimp only at hrun
      cases hrec : FdafAec.processSeq wf wi n st1 cs with
      | none => rw [hrec] at hrun; exact Option.noConfusion hrun
      | some r2 =>
        obtain ⟨outs1, stF'⟩ := r2
        rw [hrec] at hrun
        dsimp only at hrun
        injection hrun with hpair
        injection hpair with _ hs
        obtain ⟨hpos1, hα1⟩ :=
          psd_pos_step wf wi n st c.1 c.2.1 c.2.2 out st1 hpos hα hproc
        obtain ⟨hposF, hαF⟩ := ih st1 outs1 stF' hpos1 hα1 hrec
        exact ⟨hs ▸ hposF, hs ▸ hαF⟩

lemma history_run (wf wi : ℕ → Cx) (n : ℕ) (heven : n = 2 * (n / 2)) :
    ∀ (calls : List (List ℚ × List ℚ × List ℚ)) (st : FdafAec)
      (outs : List (List ℚ)) (stF : FdafAec),
      st.far_end_buffer.length = n →
      FdafAec.processSeq wf wi n st calls = some (outs, stF) →
      stF.far_end_buffer
        = (st.far_end_buffer ++ (calls.map fun c => c.2.1).flatten).drop
            ((n / 2) * calls.length) := by
  intro calls
  induction calls with
  | nil =>
    intro st outs stF _ hrun
    simp only [FdafAec.processSeq] at hrun
    injection hrun with hpair
    injection hpair with _ hs
    simp [← hs]
  | cons c cs ih =>
    intro st outs stF hfb hrun
    simp only [FdafAec.processSeq] at hrun
    cases hproc : FdafAec.process wf wi n st c.1 c.2.1 c.2.2 with
    | none => rw [hproc] at hrun; exact Option.noConfusion hrun
    | some r =>
      obtain ⟨out, st1⟩ := r
      rw [hproc] at hrun
      dsimp only at hrun
      cases hrec : FdafAec.processSeq wf wi n st1 cs with
      | none => rw [hrec] at hrun; exact Option.noConfusion hrun
      | some r2 =>
        obtain ⟨outs1, stF'⟩ := r2
        rw [hrec] at hrun
        dsimp only at hrun
        injection hrun with hpair
        injection hpair with _ hs
        obtain ⟨hB, hBlen, hfar⟩ :=
          shift_step wf wi n st c.1 c.2.1 c.2.2 out st1 heven hfb hproc
        have hIH := ih st1 outs1 stF' hBlen hrec
        subst hs
        rw [hIH, hB]
        have hdd : ∀ (X : List ℚ) (j : ℕ),
            (st.far_end_buffer.drop (n / 2) ++ X).drop j
              = (st.far_end_buffer ++ X).drop (n / 2 + j) := by
          intro X j
          rw [← List.drop_drop]
          congr 1
          exact (List.drop_append_of_le_length (by omega)).symm
        simp only [List.map_cons, List.flatten, List.length_cons]
        rw [List.append_assoc, hdd, ← List.append_assoc]
        congr 1
        ring

/-! ### Constructor facts and the cold-start frame -/

lemma new_eq_some (fftSize : ℕ) (s : ℚ)
    (h : 0 < frameSize fftSize ∧ isPowerOfTwo (frameSize fftSize) = true) :
    FdafAec.new fftSize s
      = some ⟨List.replicate fftSize 0, List.replicate fftSize 0,
              List.replicate fftSize 1, s, 98 / 100⟩ := by
  rw [FdafAec.new, if_pos h]

/-- An all-ones twiddle table, used only to instantiate theorems at concrete
inputs. -/
def oneTable : ℕ → Cx := fun _ => 1

lemma cold_process (wf wi : ℕ → Cx) (n : ℕ) (st : FdafAec) (errBuf far mic : List ℚ)
    (hw : st.weights = List.replicate n 0)
    (hbuf : st.far_end_buffer = List.replicate n 0)
    (hpsd : st.psd = List.replicate n 1)
    (h1 : errBuf.length = n / 2)
    (hfar : far = List.replicate (n / 2) 0)
    (h3 : mic.length = n / 2) :
    FdafAec.process wf wi n st errBuf far mic
      = some (mic,
          { weights := List.replicate n 0
            far_end_buffer := List.replicate n 0
            psd := List.replicate n st.smoothing_factor
            mu := st.mu
            smoothing_factor := st.smoothing_factor }) := by
  have h2 : far.length = n / 2 := by rw [hfar]; simp
  have h2m : 2 * (n / 2) ≤ n := by omega
  have hshift : shiftBuffer (n / 2) st.far_end_buffer far = List.replicate n 0 := by
    rw [hbuf, hfar]
    exact shiftBuffer_replicate_zero n (n / 2) h2m
  have hpsd2 : updatePsd st.smoothing_factor (List.replicate n 1) (List.replicate n (0 : Cx))
      = List.replicate n st.smoothing_factor := by
    unfold updatePsd
    rw [zipWith_replicate_both]
    congr 1
    simp
  rw [process_eq_some wf wi n st errBuf far mic h1 h2 h3, hshift, toComplex_replicate,
    dft_replicate_zero, hw, echoEstimate_zero wi n (n / 2) _ (by simp) h2m,
    writeError_zero_echo errBuf mic (n / 2) h1 h3, hpsd, hpsd2,
    nlmsGradient_zero_xf n _ _ (errorSpectrum_length wf n (n / 2) mic) (by simp),
    updateWeights_zero_zero]

/-! ### The claims -/

/-- **C1** (corrected).  Cold start with `N = 512`, `μ = 0.5`, `far = [0]*256`,
`mic = [0.1]*256`: the output equals the mic frame exactly and the weights stay
identically zero, but the PSD does *not* stay at its `1.0` seed — the
unconditional smoothing update drives every entry to `0.98` (the claim's "PSD
unchanged" part is false; see the counterexample). -/
theorem cold_start_identity_amended (wf wi : ℕ → Cx) (errBuf : List ℚ) (st0 : FdafAec)
    (hnew : FdafAec.new 512 (1 / 2) = some st0) (hlen : errBuf.length = 256) :
    FdafAec.process wf wi 512 st0 errBuf (List.replicate 256 0) (List.replicate 256 (1 / 10))
      = some (List.replicate 256 (1 / 10),
          { weights := List.replicate 512 0
            far_end_buffer := List.replicate 512 0
            psd := List.replicate 512 (49 / 50)
            mu := 1 / 2
            smoothing_factor := 49 / 50 }) := by
  rw [new_eq_some 512 (1 / 2) (by decide)] at hnew
  injection hnew with hst0
  subst hst0
  have h98 : (98 / 100 : ℚ) = 49 / 50 := by norm_num
  rw [cold_process wf wi 512 _ errBuf _ _ rfl rfl rfl hlen rfl
    (by rw [List.length_replicate])]
  dsimp only
  rw [h98]

/-- Witness for C1's amended theorem at the all-ones twiddle table and a
zeroed output buffer. -/
theorem cold_start_identity_witness :
    (FdafAec.new 512 (1 / 2)
        = some ⟨List.replicate 512 0, List.replicate 512 0,
                List.replicate 512 1, 1 / 2, 98 / 100⟩)
    ∧ (List.replicate 256 (0 : ℚ)).length = 256
    ∧ FdafAec.process oneTable oneTable 512
        ⟨List.replicate 512 0, List.replicate 512 0, List.replicate 512 1, 1 / 2, 98 / 100⟩
        (List.replicate 256 0) (List.replicate 256 0) (List.replicate 256 (1 / 10))
      = some (List.replicate 256 (1 / 10),
          { weights := List.replicate 512 0
            far_end_buffer := List.replicate 512 0
            psd := List.replicate 512 (49 / 50)
            mu := 1 / 2
            smoothing_factor := 49 / 50 }) :=
  ⟨new_eq_some 512 (1 / 2) (by decide), by rw [List.length_replicate],
    cold_start_identity_amended oneTable oneTable (List.replicate 256 0) _
      (new_eq_some 512 (1 / 2) (by decide)) (by rw [List.length_replicate])⟩

/-- **C1** (counterexample to the claim as stated).  After the cold-start frame
the PSD is `[0.98]*512`, not the `[1.0]*512` seed the claim asserts. -/
theorem cold_start_identity_counterexample :
    FdafAec.process oneTable oneTable 512
        ⟨List.replicate 512 0, List.replicate 512 0, List.replicate 512 1, 1 / 2, 98 / 100⟩
        (List.replicate 256 0) (List.replicate 256 0) (List.replicate 256 (1 / 10))
      = some (List.replicate 256 (1 / 10),
          ⟨List.replicate 512 0, List.replicate 512 0,
           List.replicate 512 (49 / 50), 1 / 2, 49 / 50⟩)
    ∧ List.replicate 512 ((49 : ℚ) / 50) ≠ List.replicate 512 (1 : ℚ) := by
  constructor
  · have h98 : (98 / 100 : ℚ) = 49 / 50 := by norm_num
    rw [cold_process oneTable oneTable 512 _ _ _ _ rfl rfl rfl
      (by rw [List.length_replicate]) rfl (by rw [List.length_replicate])]
    dsimp only
    rw [h98]
  · intro h
    exact absurd (List.replicate_right_injective (by norm_num) h) (by norm_num)

/-- **C2** (code bug).  The constructor's guard checks `FRAME_SIZE = N / 2`
instead of `N`: `N = 511` is rejected and all of `N = 2, …, 2048` are
accepted as the claim says, but `N = 513` — not a power of two — is accepted
because `513 / 2 = 256` is one, contradicting the doc comment
"Must be a power of two" on `fft_size`. -/
theorem construction_guard_code_bug :
    FdafAec.new 511 (1 / 2) = none
    ∧ (FdafAec.new 513 (1 / 2)).isSome = true
    ∧ isPowerOfTwo 513 = false
    ∧ ([2, 4, 8, 16, 32, 64, 128, 256, 512, 1024, 2048] : List ℕ).all
        (fun k => (FdafAec.new k (1 / 2)).isSome) = true := by
  exact ⟨by decide, by decide, by decide, by decide⟩

/-- **C6** (confirmed).  A `process` call whose frame length differs from
`M = N / 2` fails at entry: the model returns `none` and no state is produced,
matching the leading `assert_eq!` which panics before any mutation. -/
theorem frame_size_guard (wf wi : ℕ → Cx) (n : ℕ) (st : FdafAec)
    (errBuf far mic : List ℚ)
    (h : far.length ≠ n / 2 ∨ mic.length ≠ n / 2) :
    FdafAec.process wf wi n st errBuf far mic = none := by
  apply process_eq_none
  intro hc
  rcases h with h | h
  · exact h hc.2.1
  · exact h hc.2.2

/-- Witness for C6: a frame of length 0 against `M = 1` (`N = 2`) is rejected. -/
theorem frame_size_guard_witness :
    (([] : List ℚ).length ≠ 2 / 2 ∨ ([0] : List ℚ).length ≠ 2 / 2)
    ∧ FdafAec.process oneTable oneTable 2
        ⟨List.replicate 2 0, List.replicate 2 0, List.replicate 2 1, 1 / 2, 98 / 100⟩
        [0] [] [0] = none :=
  ⟨by decide,
    frame_size_guard oneTable oneTable 2 _ [0] [] [0] (by decide)⟩

/-- **C9** (confirmed).  Construction never inspects `step_size`: whenever the
size guard on `N` passes, `new` succeeds for every scalar `step_size` — zero
and negative included — and stores it unchanged as `mu`.  (IEEE `inf`/`NaN`
arguments have no counterpart in this exact-arithmetic model; the guard's
independence from `step_size` is what is proved.) -/
theorem step_size_unvalidated (stepSize : ℚ) (n : ℕ)
    (h : 0 < frameSize n) (h2 : isPowerOfTwo (frameSize n) = true) :
    (FdafAec.new n stepSize).isSome = true
    ∧ (FdafAec.new n stepSize).map FdafAec.mu = some stepSize := by
  rw [new_eq_some n stepSize ⟨h, h2⟩]
  exact ⟨rfl, rfl⟩

/-- Witness for C9 at `N = 512` and the negative step size `-3/7`. -/
theorem step_size_unvalidated_witness :
    0 < frameSize 512 ∧ isPowerOfTwo (frameSize 512) = true
    ∧ ((FdafAec.new 512 (-3 / 7)).isSome = true
        ∧ (FdafAec.new 512 (-3 / 7)).map FdafAec.mu = some (-3 / 7)) :=
  ⟨by decide, by decide, step_size_unvalidated (-3 / 7) 512 (by decide) (by decide)⟩

lemma getElem?_zipWith_some {f : α → β → γ} {a : List α} {b : List β} {k : ℕ}
    {x : α} {y : β} (ha : a[k]? = some x) (hb : b[k]? = some y) :
    (List.zipWith f a b)[k]? = some (f x y) := by
  rw [List.getElem?_zipWith', ha, hb]
  rfl

/-- **C3** (confirmed).  In every successful `process` call, bin `k` of the
new weight vector is `W[k] + μ · (conj(X_f[k]) · E_f[k] / (PSD'[k] + 1e-10))`,
where `X_f` is the spectrum of the shifted history, `E_f` the spectrum of the
zero-padded output frame, and `PSD'` is the *post-call* PSD — i.e. the value
after this same frame's smoothing update (the denominator is read from the
updated state `st'`, not the old one).  The weights of `st'` are produced by
this one update alone. -/
theorem nlms_weight_update (wf wi : ℕ → Cx) (n : ℕ) (st : FdafAec)
    (errBuf far mic out : List ℚ) (st' : FdafAec) (k : ℕ) (w X E : Cx) (p : ℚ)
    (hres : FdafAec.process wf wi n st errBuf far mic = some (out, st'))
    (hw : st.weights[k]? = some w)
    (hX : (dft wf (toComplex (shiftBuffer (n / 2) st.far_end_buffer far)))[k]? = some X)
    (hE : (errorSpectrum wf n (n / 2) out)[k]? = some E)
    (hp : st'.psd[k]? = some p) :
    st'.weights[k]? = some (w + (X.conj * E).divQ (p + 1 / 10000000000) * ⟨st.mu, 0⟩) := by
  obtain ⟨h1, h2, h3⟩ := process_some_lengths hres
  have heq := hres.symm.trans (process_eq_some wf wi n st errBuf far mic h1 h2 h3)
  injection heq with hpair
  injection hpair with ho hs
  have hout : out = writeError errBuf mic
      (echoEstimate wi n (n / 2) st.weights
        (dft wf (toComplex (shiftBuffer (n / 2) st.far_end_buffer far)))) := ho
  have hpsd' : st'.psd = updatePsd st.smoothing_factor st.psd
      (dft wf (toComplex (shiftBuffer (n / 2) st.far_end_buffer far))) := by rw [hs]
  rw [hpsd'] at hp
  rw [hs]
  show (updateWeights st.mu st.weights
      (nlmsGradient (dft wf (toComplex (shiftBuffer (n / 2) st.far_end_buffer far)))
        (errorSpectrum wf n (n / 2)
          (writeError errBuf mic
            (echoEstimate wi n (n / 2) st.weights
              (dft wf (toComplex (shiftBuffer (n / 2) st.far_end_buffer far))))))
        (updatePsd st.smoothing_factor st.psd
          (dft wf (toComplex (shiftBuffer (n / 2) st.far_end_buffer far))))))[k]?
      = some (w + (X.conj * E).divQ (p + 1 / 10000000000) * ⟨st.mu, 0⟩)
  rw [← hout]
  unfold updateWeights nlmsGradient
  exact getElem?_zipWith_some hw (getElem?_zipWith_some (getElem?_zipWith_some hX hE) hp)

/-- Witness for C3: a concrete one-frame run with `N = 2`, far-end `[0]`,
mic `[1/2]`, evaluated at the all-ones twiddle table, checked at bin `k = 0`. -/
theorem nlms_weight_update_witness :
    FdafAec.process oneTable oneTable 2
        ⟨[0, 0], [0, 0], [1, 1], 1 / 2, 49 / 50⟩ [0] [0] [1 / 2]
      = some ([1 / 2], ⟨[0, 0], [0, 0], [49 / 50, 49 / 50], 1 / 2, 49 / 50⟩)
    ∧ ([0, 0] : List Cx)[0]? = some 0
    ∧ (dft oneTable (toComplex (shiftBuffer (2 / 2)
        ([0, 0] : List ℚ) ([0] : List ℚ))))[0]? = some 0
    ∧ (errorSpectrum oneTable 2 (2 / 2) [1 / 2])[0]? = some ⟨1 / 2, 0⟩
    ∧ ((⟨[0, 0], [0, 0], [49 / 50, 49 / 50], 1 / 2, 49 / 50⟩ : FdafAec)).psd[0]?
        = some (49 / 50)
    ∧ ((⟨[0, 0], [0, 0], [49 / 50, 49 / 50], 1 / 2, 49 / 50⟩ : FdafAec)).weights[0]?
        = some (0 + (Cx.conj 0 * ⟨1 / 2, 0⟩).divQ (49 / 50 + 1 / 10000000000) * ⟨1 / 2, 0⟩) := by
  have hXeq : dft oneTable (toComplex (shiftBuffer (2 / 2) ([0, 0] : List ℚ) ([0] : List ℚ)))
      = List.replicate 2 0 := by
    show dft oneTable (toComplex (shiftBuffer 1 (List.replicate 2 0) (List.replicate 1 0))) = _
    rw [shiftBuffer_replicate_zero 2 1 (by omega), toComplex_replicate, dft_replicate_zero]
  have hX0 : (dft oneTable (toComplex (shiftBuffer (2 / 2)
      ([0, 0] : List ℚ) ([0] : List ℚ))))[0]? = some 0 := by
    rw [hXeq]
    rfl
  have hres : FdafAec.process oneTable oneTable 2
      ⟨[0, 0], [0, 0], [1, 1], 1 / 2, 49 / 50⟩ [0] [0] [1 / 2]
      = some ([1 / 2], ⟨[0, 0], [0, 0], [49 / 50, 49 / 50], 1 / 2, 49 / 50⟩) :=
    cold_process oneTable oneTable 2
      ⟨[0, 0], [0, 0], [1, 1], 1 / 2, 49 / 50⟩ [0] [0] [1 / 2] rfl rfl rfl rfl rfl rfl
  have hE : (errorSpectrum oneTable 2 (2 / 2) [1 / 2])[0]? = some ⟨1 / 2, 0⟩ := by
    simp [errorSpectrum, writeLoopOff, dft, csum, oneTable, List.enum, List.enumFrom,
      List.range_succ, List.replicate, Cx.mk.injEq]
  refine ⟨hres, rfl, hX0, hE, rfl, ?_⟩
  exact nlms_weight_update oneTable oneTable 2
    ⟨[0, 0], [0, 0], [1, 1], 1 / 2, 49 / 50⟩ [0] [0] [1 / 2] [1 / 2]
    ⟨[0, 0], [0, 0], [49 / 50, 49 / 50], 1 / 2, 49 / 50⟩ 0 0 0 ⟨1 / 2, 0⟩ (49 / 50)
    hres rfl hX0 hE rfl

lemma new_fields {n : ℕ} {mu : ℚ} {st0 : FdafAec} (hnew : FdafAec.new n mu = some st0) :
    st0 = ⟨List.replicate n 0, List.replicate n 0, List.replicate n 1, mu, 98 / 100⟩ := by
  unfold FdafAec.new at hnew
  split at hnew
  · exact (Option.some_inj.mp hnew).symm
  · exact Option.noConfusion hnew

/-- **C4** (confirmed).  Silent far-end law: from any state whose weights and
far-end history are identically zero (as after construction), a stream of
calls whose far-end samples are all `0.0` echoes every mic frame back exactly
and leaves the weights identically zero after every call (the hypotheses are
re-established at each intermediate state, so the statement applies to every
prefix of the stream). -/
theorem silent_far_end_law (wf wi : ℕ → Cx) (n : ℕ) (st : FdafAec)
    (calls : List (List ℚ × List ℚ × List ℚ)) (outs : List (List ℚ)) (stF : FdafAec)
    (hw : st.weights = List.replicate n 0)
    (hbuf : st.far_end_buffer = List.replicate n 0)
    (hpsd : st.psd.length = n)
    (hfar0 : ∀ c ∈ calls, ∀ x ∈ c.2.1, x = (0 : ℚ))
    (hrun : FdafAec.processSeq wf wi n st calls = some (outs, stF)) :
    outs = calls.map (fun c => c.2.2) ∧ stF.weights = List.replicate n 0
      ∧ stF.far_end_buffer = List.replicate n 0 :=
  let h := silent_far_run wf wi n calls st outs stF hw hbuf hpsd hfar0 hrun
  ⟨h.1, h.2.1, h.2.2.1⟩

/-- Witness for C4: one silent frame at `N = 2` with mic `[3]`. -/
theorem silent_far_end_law_witness :
    ((⟨[0, 0], [0, 0], [1, 1], 1 / 2, 49 / 50⟩ : FdafAec)).weights = List.replicate 2 0
    ∧ ((⟨[0, 0], [0, 0], [1, 1], 1 / 2, 49 / 50⟩ : FdafAec)).far_end_buffer
        = List.replicate 2 0
    ∧ ((⟨[0, 0], [0, 0], [1, 1], 1 / 2, 49 / 50⟩ : FdafAec)).psd.length = 2
    ∧ (∀ c ∈ ([([0], [0], [3])] : List (List ℚ × List ℚ × List ℚ)),
        ∀ x ∈ c.2.1, x = (0 : ℚ))
    ∧ FdafAec.processSeq oneTable oneTable 2
        ⟨[0, 0], [0, 0], [1, 1], 1 / 2, 49 / 50⟩ [([0], [0], [3])]
      = some ([[3]], ⟨[0, 0], [0, 0], [49 / 50, 49 / 50], 1 / 2, 49 / 50⟩)
    ∧ ([[3]] : List (List ℚ))
        = ([([0], [0], [3])] : List (List ℚ × List ℚ × List ℚ)).map (fun c => c.2.2)
    ∧ ((⟨[0, 0], [0, 0], [49 / 50, 49 / 50], 1 / 2, 49 / 50⟩ : FdafAec)).weights
        = List.replicate 2 0
    ∧ ((⟨[0, 0], [0, 0], [49 / 50, 49 / 50], 1 / 2, 49 / 50⟩ : FdafAec)).far_end_buffer
        = List.replicate 2 0 := by
  have hproc : FdafAec.process oneTable oneTable 2
      ⟨[0, 0], [0, 0], [1, 1], 1 / 2, 49 / 50⟩ [0] [0] [3]
      = some ([3], ⟨[0, 0], [0, 0], [49 / 50, 49 / 50], 1 / 2, 49 / 50⟩) :=
    cold_process oneTable oneTable 2
      ⟨[0, 0], [0, 0], [1, 1], 1 / 2, 49 / 50⟩ [0] [0] [3] rfl rfl rfl rfl rfl rfl
  have hrun : FdafAec.processSeq oneTable oneTable 2
      ⟨[0, 0], [0, 0], [1, 1], 1 / 2, 49 / 50⟩ [([0], [0], [3])]
      = some ([[3]], ⟨[0, 0], [0, 0], [49 / 50, 49 / 50], 1 / 2, 49 / 50⟩) := by
    simp only [FdafAec.processSeq, hproc]
  have hfar0 : ∀ c ∈ ([([0], [0], [3])] : List (List ℚ × List ℚ × List ℚ)),
      ∀ x ∈ c.2.1, x = (0 : ℚ) := by
    intro c hc x hx
    rw [List.mem_singleton] at hc
    subst hc
    simpa using hx
  obtain ⟨h1, h2, h3⟩ := silent_far_end_law oneTable oneTable 2
    ⟨[0, 0], [0, 0], [1, 1], 1 / 2, 49 / 50⟩ [([0], [0], [3])] [[3]]
    ⟨[0, 0], [0, 0], [49 / 50, 49 / 50], 1 / 2, 49 / 50⟩ rfl rfl rfl hfar0 hrun
  exact ⟨rfl, rfl, rfl, hfar0, hrun, h1, h2, h3⟩

/-- **C5** (confirmed).  Zero step size law: with `μ = 0` and initially zero
weights, the weights stay identically zero through any successful stream of
calls and every output frame equals its mic frame exactly. -/
theorem zero_step_size_law (wf wi : ℕ → Cx) (n : ℕ) (st : FdafAec)
    (calls : List (List ℚ × List ℚ × List ℚ)) (outs : List (List ℚ)) (stF : FdafAec)
    (hmu : st.mu = 0)
    (hw : st.weights = List.replicate n 0)
    (hfb : st.far_end_buffer.length = n)
    (hpsd : st.psd.length = n)
    (hrun : FdafAec.processSeq wf wi n st calls = some (outs, stF)) :
    outs = calls.map (fun c => c.2.2) ∧ stF.weights = List.replicate n 0 :=
  let h := zero_mu_run wf wi n calls st outs stF hmu hw hfb hpsd hrun
  ⟨h.1, h.2.1⟩

/-- Witness for C5: one frame with `μ = 0` at `N = 2`. -/
theorem zero_step_size_law_witness :
    ((⟨[0, 0], [0, 0], [1, 1], 0, 49 / 50⟩ : FdafAec)).mu = 0
    ∧ ((⟨[0, 0], [0, 0], [1, 1], 0, 49 / 50⟩ : FdafAec)).weights = List.replicate 2 0
    ∧ ((⟨[0, 0], [0, 0], [1, 1], 0, 49 / 50⟩ : FdafAec)).far_end_buffer.length = 2
    ∧ ((⟨[0, 0], [0, 0], [1, 1], 0, 49 / 50⟩ : FdafAec)).psd.length = 2
    ∧ FdafAec.processSeq oneTable oneTable 2
        ⟨[0, 0], [0, 0], [1, 1], 0, 49 / 50⟩ [([0], [0], [3])]
      = some ([[3]], ⟨[0, 0], [0, 0], [49 / 50, 49 / 50], 0, 49 / 50⟩)
    ∧ ([[3]] : List (List ℚ))
        = ([([0], [0], [3])] : List (List ℚ × List ℚ × List ℚ)).map (fun c => c.2.2)
    ∧ ((⟨[0, 0], [0, 0], [49 / 50, 49 / 50], 0, 49 / 50⟩ : FdafAec)).weights
        = List.replicate 2 0 := by
  have hproc : FdafAec.process oneTable oneTable 2
      ⟨[0, 0], [0, 0], [1, 1], 0, 49 / 50⟩ [0] [0] [3]
      = some ([3], ⟨[0, 0], [0, 0], [49 / 50, 49 / 50], 0, 49 / 50⟩) :=
    cold_process oneTable oneTable 2
      ⟨[0, 0], [0, 0], [1, 1], 0, 49 / 50⟩ [0] [0] [3] rfl rfl rfl rfl rfl rfl
  have hrun : FdafAec.processSeq oneTable oneTable 2
      ⟨[0, 0], [0, 0], [1, 1], 0, 49 / 50⟩ [([0], [0], [3])]
      = some ([[3]], ⟨[0, 0], [0, 0], [49 / 50, 49 / 50], 0, 49 / 50⟩) := by
    simp only [FdafAec.processSeq, hproc]
  obtain ⟨h1, h2⟩ := zero_step_size_law oneTable oneTable 2
    ⟨[0, 0], [0, 0], [1, 1], 0, 49 / 50⟩ [([0], [0], [3])] [[3]]
    ⟨[0, 0], [0, 0], [49 / 50, 49 / 50], 0, 49 / 50⟩ rfl rfl rfl rfl hrun
  exact ⟨rfl, rfl, rfl, rfl, hrun, h1, h2⟩

/-- **C7** (confirmed).  PSD positivity: starting from the all-`1.0` seed laid
down by the constructor, every entry of the PSD is strictly positive after
every successful stream of calls (each update is
`0.98 · old + 0.02 · |X_f[k]|² > 0`). -/
theorem psd_positive_invariant (wf wi : ℕ → Cx) (n : ℕ) (mu : ℚ) (st0 : FdafAec)
    (calls : List (List ℚ × List ℚ × List ℚ)) (outs : List (List ℚ)) (stF : FdafAec)
    (hnew : FdafAec.new n mu = some st0)
    (hrun : FdafAec.processSeq wf wi n st0 calls = some (outs, stF)) :
    ∀ p ∈ stF.psd, 0 < p := by
  have hst0 := new_fields hnew
  subst hst0
  refine (psd_pos_run wf wi n calls _ outs stF ?_ (by norm_num) hrun).1
  intro p hp
  rw [List.eq_of_mem_replicate hp]
  norm_num

/-- Witness for C7: one frame at `N = 2` from a freshly constructed state. -/
theorem psd_positive_invariant_witness :
    FdafAec.new 2 (1 / 2)
      = some ⟨List.replicate 2 0, List.replicate 2 0, List.replicate 2 1, 1 / 2, 98 / 100⟩
    ∧ FdafAec.processSeq oneTable oneTable 2
        ⟨List.replicate 2 0, List.replicate 2 0, List.replicate 2 1, 1 / 2, 98 / 100⟩
        [([0], [0], [3])]
      = some ([[3]],
          ⟨List.replicate 2 0, List.replicate 2 0, List.replicate 2 (98 / 100),
           1 / 2, 98 / 100⟩)
    ∧ ∀ p ∈ (⟨List.replicate 2 0, List.replicate 2 0, List.replicate 2 (98 / 100),
        1 / 2, 98 / 100⟩ : FdafAec).psd, 0 < p := by
  have hproc : FdafAec.process oneTable oneTable 2
      ⟨List.replicate 2 0, List.replicate 2 0, List.replicate 2 1, 1 / 2, 98 / 100⟩
      [0] [0] [3]
      = some ([3],
          ⟨List.replicate 2 0, List.replicate 2 0, List.replicate 2 (98 / 100),
           1 / 2, 98 / 100⟩) :=
    cold_process oneTable oneTable 2
      ⟨List.replicate 2 0, List.replicate 2 0, List.replicate 2 1, 1 / 2, 98 / 100⟩
      [0] [0] [3] rfl rfl rfl rfl rfl rfl
  have hrun : FdafAec.processSeq oneTable oneTable 2
      ⟨List.replicate 2 0, List.replicate 2 0, List.replicate 2 1, 1 / 2, 98 / 100⟩
      [([0], [0], [3])]
      = some ([[3]],
          ⟨List.replicate 2 0, List.replicate 2 0, List.replicate 2 (98 / 100),
           1 / 2, 98 / 100⟩) := by
    simp only [FdafAec.processSeq, hproc]
  exact ⟨new_eq_some 2 (1 / 2) (by decide), hrun,
    psd_positive_invariant oneTable oneTable 2 (1 / 2) _ [([0], [0], [3])] [[3]] _
      (new_eq_some 2 (1 / 2) (by decide)) hrun⟩

/-- **C8** (confirmed, for even `N` — the spec's invariant 3 makes `N` a power
of two, hence even).  After any successful stream of calls from a freshly
constructed processor, the far-end history holds, oldest first, the last `N`
far-end samples ever supplied, zero-padded on the left before `N` samples have
arrived; and each single call turns the history `B` into `B.drop M ++ far`
(second half shifted into the first half, new frame copied into the second
half) before the transform reads it. -/
theorem history_window_invariant (wf wi : ℕ → Cx) (n : ℕ) (mu : ℚ) (st0 : FdafAec)
    (calls : List (List ℚ × List ℚ × List ℚ)) (outs : List (List ℚ)) (stF : FdafAec)
    (heven : n = 2 * (n / 2))
    (hnew : FdafAec.new n mu = some st0)
    (hrun : FdafAec.processSeq wf wi n st0 calls = some (outs, stF)) :
    stF.far_end_buffer
      = (List.replicate n (0 : ℚ) ++ (calls.map fun c => c.2.1).flatten).drop
          ((n / 2) * calls.length)
    ∧ ∀ (st : FdafAec) (errBuf far mic out : List ℚ) (st' : FdafAec),
        st.far_end_buffer.length = n →
        FdafAec.process wf wi n st errBuf far mic = some (out, st') →
        st'.far_end_buffer = st.far_end_buffer.drop (n / 2) ++ far := by
  have hst0 := new_fields hnew
  subst hst0
  constructor
  · have := history_run wf wi n heven calls _ outs stF (by rw [List.length_replicate]) hrun
    simpa using this
  · intro st errBuf far mic out st' hfb hp
    exact (shift_step wf wi n st errBuf far mic out st' heven hfb hp).1

/-- Witness for C8: one silent frame at `N = 2` from a fresh state. -/
theorem history_window_invariant_witness :
    (2 : ℕ) = 2 * (2 / 2)
    ∧ FdafAec.new 2 (1 / 2)
        = some ⟨List.replicate 2 0, List.replicate 2 0, List.replicate 2 1, 1 / 2, 98 / 100⟩
    ∧ FdafAec.processSeq oneTable oneTable 2
        ⟨List.replicate 2 0, List.replicate 2 0, List.replicate 2 1, 1 / 2, 98 / 100⟩
        [([0], [0], [3])]
      = some ([[3]],
          ⟨List.replicate 2 0, List.replicate 2 0, List.replicate 2 (98 / 100),
           1 / 2, 98 / 100⟩)
    ∧ ((⟨List.replicate 2 0, List.replicate 2 0, List.replicate 2 (98 / 100),
          1 / 2, 98 / 100⟩ : FdafAec).far_end_buffer
        = (List.replicate 2 (0 : ℚ)
            ++ (([([0], [0], [3])] : List (List ℚ × List ℚ × List ℚ)).map
                  fun c => c.2.1).flatten).drop ((2 / 2) * 1)
        ∧ ∀ (st : FdafAec) (errBuf far mic out : List ℚ) (st' : FdafAec),
            st.far_end_buffer.length = 2 →
            FdafAec.process oneTable oneTable 2 st errBuf far mic = some (out, st') →
            st'.far_end_buffer = st.far_end_buffer.drop (2 / 2) ++ far) := by
  have hproc : FdafAec.process oneTable oneTable 2
      ⟨List.replicate 2 0, List.replicate 2 0, List.replicate 2 1, 1 / 2, 98 / 100⟩
      [0] [0] [3]
      = some ([3],
          ⟨List.replicate 2 0, List.replicate 2 0, List.replicate 2 (98 / 100),
           1 / 2, 98 / 100⟩) :=
    cold_process oneTable oneTable 2
      ⟨List.replicate 2 0, List.replicate 2 0, List.replicate 2 1, 1 / 2, 98 / 100⟩
      [0] [0] [3] rfl rfl rfl rfl rfl rfl
  have hrun : FdafAec.processSeq oneTable oneTable 2
      ⟨List.replicate 2 0, List.replicate 2 0, List.replicate 2 1, 1 / 2, 98 / 100⟩
      [([0], [0], [3])]
      = some ([[3]],
          ⟨List.replicate 2 0, List.replicate 2 0, List.replicate 2 (98 / 100),
           1 / 2, 98 / 100⟩) := by
    simp only [FdafAec.processSeq, hproc]
  exact ⟨by decide, new_eq_some 2 (1 / 2) (by decide), hrun,
    history_window_invariant oneTable oneTable 2 (1 / 2) _ [([0], [0], [3])] [[3]] _
      (by decide) (new_eq_some 2 (1 / 2) (by decide)) hrun⟩

/-- **C10** (confirmed).  Two `process` calls on equal states with equal far
and mic frames but different initial contents of the caller's output buffer
produce the same result (output frame and successor state): the write loop at
step 7 overwrites every index of the buffer before step 8 reads it back. -/
theorem output_buffer_independence (wf wi : ℕ → Cx) (n : ℕ) (st : FdafAec)
    (buf1 buf2 far mic : List ℚ)
    (hlen : buf1.length = buf2.length)
    (hfb : st.far_end_buffer.length = n)
    (hw : st.weights.length = n) :
    FdafAec.process wf wi n st buf1 far mic = FdafAec.process wf wi n st buf2 far mic := by
  by_cases hg : buf1.length = n / 2 ∧ far.length = n / 2 ∧ mic.length = n / 2
  · obtain ⟨h1, h2, h3⟩ := hg
    have h1' : buf2.length = n / 2 := by omega
    have hxflen : (dft wf (toComplex (shiftBuffer (n / 2) st.far_end_buffer far))).length
        = n := by
      rw [dft_length, toComplex_length, shiftBuffer_length (n / 2) _ _ h2 (by omega), hfb]
    have hecho : (echoEstimate wi n (n / 2) st.weights
        (dft wf (toComplex (shiftBuffer (n / 2) st.far_end_buffer far)))).length = n / 2 :=
      echoEstimate_length wi n (n / 2) _ _ hw hxflen (by omega)
    have hout : writeError buf1 mic (echoEstimate wi n (n / 2) st.weights
          (dft wf (toComplex (shiftBuffer (n / 2) st.far_end_buffer far))))
        = writeError buf2 mic (echoEstimate wi n (n / 2) st.weights
          (dft wf (toComplex (shiftBuffer (n / 2) st.far_end_buffer far)))) := by
      rw [writeError_eq buf1 mic _ (by omega) (by omega),
          writeError_eq buf2 mic _ (by omega) (by omega)]
    rw [process_eq_some wf wi n st buf1 far mic h1 h2 h3,
        process_eq_some wf wi n st buf2 far mic h1' h2 h3, hout]
  · have hg2 : ¬(buf2.length = n / 2 ∧ far.length = n / 2 ∧ mic.length = n / 2) := by
      intro hc
      exact hg ⟨hlen.trans hc.1, hc.2.1, hc.2.2⟩
    rw [process_eq_none _ _ _ _ _ _ _ hg, process_eq_none _ _ _ _ _ _ _ hg2]

/-- Witness for C10: buffers `[7]` and `[9]` at `N = 2` yield identical calls. -/
theorem output_buffer_independence_witness :
    ([7] : List ℚ).length = ([9] : List ℚ).length
    ∧ ((⟨[0, 0], [0, 0], [1, 1], 1 / 2, 49 / 50⟩ : FdafAec)).far_end_buffer.length = 2
    ∧ ((⟨[0, 0], [0, 0], [1, 1], 1 / 2, 49 / 50⟩ : FdafAec)).weights.length = 2
    ∧ FdafAec.process oneTable oneTable 2
        ⟨[0, 0], [0, 0], [1, 1], 1 / 2, 49 / 50⟩ [7] [4] [3]
      = FdafAec.process oneTable oneTable 2
        ⟨[0, 0], [0, 0], [1, 1], 1 / 2, 49 / 50⟩ [9] [4] [3] :=
  ⟨rfl, rfl, rfl,
    output_buffer_independence oneTable oneTable 2
      ⟨[0, 0], [0, 0], [1, 1], 1 / 2, 49 / 50⟩ [7] [9] [4] [3] rfl rfl rfl⟩
